import Mathlib

/-!
Verification of `t2t/mark_ranks.py` (class `MarkRanks`, tax2tree).

The program walks a rooted, branch-length-weighted phylogenetic tree and
annotates internal nodes with predicted taxonomic ranks.  This file embeds
the data model (skbio `TreeNode` as a rose tree with a name, a branch
length and an ordered child list) and the operations of `MarkRanks`
shallowly, and proves or refutes the specification claims about them.

Branch lengths (Python floats) are modelled as rationals; Python code that
can raise is modelled with `Except`/`Option` results.
-/

/-- A tree node as used by `mark_ranks.py`: a name, the branch length to
its parent, and an ordered list of children (skbio `TreeNode`). -/
inductive TreeN : Type where
  | node (name : String) (length : Rat) (children : List TreeN)

instance : Inhabited TreeN := ⟨.node "" 0 []⟩

/-- The node's name. -/
def TreeN.name : TreeN → String
  | .node nm _ _ => nm

/-- The node's branch length to its parent. -/
def TreeN.len : TreeN → Rat
  | .node _ l _ => l

/-- The node's ordered list of children. -/
def TreeN.children : TreeN → List TreeN
  | .node _ _ cs => cs

/-! ### Python string primitives

The names manipulated by `mark_ranks.py` multiplex a bootstrap value, a
taxon string and a rank run using the separators `:`, `|` and `;`.  The
Python string operations used on them are modelled character-wise so that
they can be evaluated by the kernel. -/

/-- Worker for `pySplit`: `acc` holds the (reversed) current chunk. -/
def pySplitAux (sep : Char) : List Char → List Char → List String
  | [], acc => [String.mk acc.reverse]
  | c :: cs, acc =>
    if c = sep then String.mk acc.reverse :: pySplitAux sep cs []
    else pySplitAux sep cs (c :: acc)

/-- Python `s.split(sep)` for a one-character separator: every occurrence
splits, `n` separators yield `n + 1` chunks, and `''.split(sep) = ['']`. -/
def pySplit (s : String) (sep : Char) : List String :=
  pySplitAux sep s.toList []

/-- Python `sep in s` for a one-character `sep`. -/
def pyContains (s : String) (sep : Char) : Bool :=
  s.toList.contains sep

/-- Decimal digits accumulated into a value; `none` on a non-digit. -/
def digitsVal : List Char → Nat → Option Nat
  | [], acc => some acc
  | c :: cs, acc =>
    if c.isDigit then digitsVal cs (10 * acc + (c.toNat - 48)) else none

/-- Python `int(s)` on a string: an optional sign followed by at least one
decimal digit; `none` where `int()` raises `ValueError` (surrounding
whitespace tolerance is not modelled). -/
def pyInt? (s : String) : Option Int :=
  match s.toList with
  | [] => none
  | c :: cs =>
    if c = '-' then
      match cs with
      | [] => none
      | _ :: _ => (digitsVal cs 0).map (fun n => -(n : Int))
    else if c = '+' then
      match cs with
      | [] => none
      | _ :: _ => (digitsVal cs 0).map (fun n => (n : Int))
    else (digitsVal (c :: cs) 0).map (fun n => (n : Int))

/-- Python `float(s)`, modelled for integer literals only (the program's
bootstrap values); a string with a fractional part is treated like the
non-numeric case, and no theorem below instantiates one. -/
def pyFloat? (s : String) : Option Int :=
  pyInt? s

/-- Python `sep.join(parts)`. -/
def pyJoin (sep : String) : List String → String
  | [] => ""
  | [x] => x
  | x :: y :: rest => x ++ sep ++ pyJoin sep (y :: rest)

/-- `MarkRanks.__init__` (line 27): the fixed ordered rank sequence
`['D__', 'P__', 'C__', 'O__', 'F__', 'G__', 'S__', 'ST__']`. -/
def rank_prefixes : List String :=
  ["D__", "P__", "C__", "O__", "F__", "G__", "S__", "ST__"]

/-- `mark`, line 312: `num_intervals = 5  # [domain, genus]`. -/
def num_intervals : Nat := 5

/-- `mark`, line 313: the rank-propagation loop header
`for cur_rank in xrange(start_rank, num_intervals)`. -/
def loopRanks (start_rank : Nat) : List Nat :=
  List.range' start_rank (num_intervals - start_rank)

/-- `mark`, line 348: `dist_to_child_rank =
(dist_to_current_rank + average_dist) / (num_intervals - cur_rank)`. -/
def dist_to_child_rank (dist_to_current_rank average_dist : Rat)
    (cur_rank : Nat) : Rat :=
  (dist_to_current_rank + average_dist) / ((num_intervals : Rat) - (cur_rank : Rat))

/-- `mark`, lines 367-373: decide whether a node at cumulative distance
`dist_from_current_rank` from the lineage head is marked at the current
rank, at the child rank, or not at all.  The boundary tests are the
source's `<=` comparisons (`0.5 * dist_to_child_rank` written as `1/2`). -/
def classifyRank (dist_from_current_rank d2c : Rat) (cur_rank : Nat) :
    Option String :=
  if dist_from_current_rank ≤ d2c then
    if dist_from_current_rank ≤ (1 / 2 : Rat) * d2c then
      some (rank_prefixes.getD cur_rank "")
    else
      some (rank_prefixes.getD (cur_rank + 1) "")
  else
    none

/-- `_mark_rank` lines 246-256: the token run placed on a node, back-filling
any gap between the deepest rank already carried by `parent_ranks` (the
result of `_marked_parent`) and the rank being assigned.
`if parent_ranks:` is Python truthiness, so an empty ranks string takes the
no-parent branch.  `self.rank_prefixes.index` raising `ValueError` on a
token not in the list is not modelled (`List.indexOf` returns the list
length there); every theorem below that reaches this case assumes the
tokens are members. -/
def backfillTokens (parent_ranks : Option String) (rank_token : String) :
    List String :=
  let cur := rank_prefixes.indexOf rank_token
  match parent_ranks with
  | some pr =>
    if pr = "" then rank_prefixes.take (cur + 1)
    else
      -- deepest_rank = parent_ranks.split(';')[-1]
      let deepest := (pySplit pr ';').getLastD ""
      let d := rank_prefixes.indexOf deepest
      if d < cur then
        -- rank_token = ';'.join(self.rank_prefixes[d + 1 : cur + 1])
        (rank_prefixes.drop (d + 1)).take (cur - d)
      else [rank_token]
  | none => rank_prefixes.take (cur + 1)

/-- The back-filled rank run as the string joined with `';'`. -/
def backfillRun (parent_ranks : Option String) (rank_token : String) :
    String :=
  pyJoin ";" (backfillTokens parent_ranks rank_token)

/-- Modelled from the spec: "the full ordered run of rank tokens from
(parent's deepest assigned rank + 1) through the rank being assigned" —
the rank tokens at indices `a` through `b` inclusive, in order.  Used only
to compare the source's slice against the spec's wording. -/
def specRun (a b : Nat) : List String :=
  (List.range' a (b + 1 - a)).map (fun i => rank_prefixes.getD i "")

/-- `_mark_rank` lines 258-265: rebuild the node name from the truthiness
and string form of the bootstrap value, the taxon text and the rank run:
`node.name = str(bootstrap) + ':'` when the bootstrap is truthy, then
`node.name += taxa_str + '|' + rank_token` when `taxa_str` is truthy and
`node.name += '|' + rank_token` otherwise. -/
def markAssemble (name : String) (btruthy : Bool) (bstr : String)
    (taxa_str : Option String) (run : String) : String :=
  let nm1 := if btruthy then bstr ++ ":" else name
  match taxa_str with
  | some t => if t = "" then nm1 ++ "|" ++ run else nm1 ++ t ++ "|" ++ run
  | none => nm1 ++ "|" ++ run

/-- `_mark_rank` (lines 203-265).  Marking depends on the node only through
its tip-ness and name, and on the tree only through `parent_ranks` (what
`_marked_parent` found); the result is `.ok` with the node's new name
(unchanged for the guard and low-support no-ops) or `.error` where the
Python raises (`sys.exit` on a name already carrying `'|'`, `ValueError`
from `int()` on a non-integer bootstrap or from unpacking a name with more
than one `':'`). -/
def markRank (is_tip : Bool) (name : String) (parent_ranks : Option String)
    (rank_token : String) (min_support : Int) : Except String String :=
  -- lines 218-219: do not modify labels of leaf nodes
  if is_tip then .ok name
  -- lines 223-224: don't append isolates species ranks
  else if rank_token = "S__" then .ok name
  -- lines 228-230: a name already holding '|' is invalid: sys.exit
  else if pyContains name '|' then .error "[Error] Node has an invalid name"
  else if pyContains name ':' then
    -- line 234: bootstrap, taxa_str = node.name.split(':')
    if (pySplit name ':').length = 2 then
      match pyInt? ((pySplit name ':').getD 0 "") with
      | none => .error "ValueError: int()"  -- line 243 raises
      | some v =>
        if v < min_support then .ok name    -- lines 243-244
        else
          .ok (markAssemble name ((pySplit name ':').getD 0 "" ≠ "")
            ((pySplit name ':').getD 0 "") (some ((pySplit name ':').getD 1 ""))
            (backfillRun parent_ranks rank_token))
    else .error "ValueError: unpack"  -- more than one ':' in the name
  else
    -- lines 236-240: try: bootstrap = float(node.name) / except
    match pyFloat? name with
    | some v =>
      if v < min_support then .ok name
      else
        .ok (markAssemble name (v ≠ 0) (toString v ++ ".0") none
          (backfillRun parent_ranks rank_token))
    | none =>
      -- except branch: bootstrap = 0, taxa_str = node.name
      if 0 < min_support then .ok name
      else
        .ok (markAssemble name false "0" (some name)
          (backfillRun parent_ranks rank_token))

/-- `_marked_parent` (lines 172-201): walk the ancestor chain (immediate
parent first, root last), each ancestor given by its name and its number
of children.  A single-child ancestor is a dummy node inserted for
bookkeeping and is skipped (`if len(parent.children) == 1: pass`);
otherwise the first ancestor whose name holds `'|'` yields its rank part
(`_name, ranks = parent.name.split('|')`, a two-part unpack that raises
`ValueError` when the name holds more than one `'|'`); reaching past the
root yields `None`. -/
def markedParent : List (String × Nat) → Except String (Option String)
  | [] => .ok none
  | (nm, nchild) :: rest =>
    if nchild = 1 then markedParent rest
    else if pyContains nm '|' then
      if (pySplit nm '|').length = 2 then .ok (some ((pySplit nm '|').getD 1 ""))
      else .error "ValueError: unpack"
    else markedParent rest

mutual

/-- skbio `root.find(label)` combined with the anchor rename of `mark`
line 296: locate the first node (preorder) whose name equals `label` and
append `suffix` to its name; `none` when no node carries the label (where
`find` raises and `mark`'s `except` clause fires). -/
def findAndRename (label suffix : String) : TreeN → Option TreeN
  | .node nm l cs =>
    if nm = label then some (.node (nm ++ suffix) l cs)
    else
      match findAndRenameL label suffix cs with
      | some cs' => some (.node nm l cs')
      | none => none

/-- `findAndRename` over a child list: rename inside the first subtree
that contains the label. -/
def findAndRenameL (label suffix : String) : List TreeN → Option (List TreeN)
  | [] => none
  | c :: cs =>
    match findAndRename label suffix c with
    | some c' => some (c' :: cs)
    | none =>
      match findAndRenameL label suffix cs with
      | some cs' => some (c :: cs')
      | none => none

end

/-- `mark` lines 291-301: resolve the anchor labels one at a time, and as
each one resolves, immediately append `'|' + rank_prefixes[start_rank]`
to that node's name (an in-place mutation).  The whole loop sits in one
`try`: the first label that fails to resolve (or an out-of-range
`start_rank`, whose `IndexError` the bare `except` also catches) makes
`mark` return `None` — but the renames already performed stay in the
tree.  The result is the pair (what `mark`'s anchor phase returns, the
tree state after the loop). -/
def markAnchors (start_rank : Nat) : TreeN → List String → Option TreeN × TreeN
  | t, [] => (some t, t)
  | t, label :: ls =>
    if start_rank < rank_prefixes.length then
      match findAndRename label ("|" ++ rank_prefixes.getD start_rank "") t with
      | some t' => markAnchors start_rank t' ls
      | none => (none, t)
    else (none, t)

mutual

/-- The node names in preorder (`root.preorder()`), root first. -/
def preorderNames : TreeN → List String
  | .node nm _ cs => nm :: preorderNamesL cs

/-- `preorderNames` over a child list, left to right. -/
def preorderNamesL : List TreeN → List String
  | [] => []
  | c :: cs => preorderNames c ++ preorderNamesL cs

end

mutual

/-- `__remove_dummy_nodes` (lines 110-135) below the root.  A node with
exactly one child is spliced out: its single child takes over with
`child.length += n.length` and is reattached to the parent
(`n.parent.append(n.children[0]); n.parent.remove(n)`), after which the
(preorder-later) child is itself examined.  `spliceTop nm l cs` processes
a node whose name, length and children are `nm`, `l`, `cs`. -/
def spliceDescend : TreeN → TreeN
  | .node nm l cs => spliceTop nm l cs

/-- Worker for `spliceDescend`; the single-child case drops the current
node and continues on the child with the summed branch length. -/
def spliceTop (nm : String) (l : Rat) : List TreeN → TreeN
  | [] => .node nm l []
  | [.node nm' l' cs'] => spliceTop nm' (l + l') cs'
  | c₁ :: c₂ :: cs =>
    .node nm l (spliceDescend c₁ :: spliceDescend c₂ :: spliceDescendL cs)

/-- `spliceDescend` mapped over a child list. -/
def spliceDescendL : List TreeN → List TreeN
  | [] => []
  | c :: cs => spliceDescend c :: spliceDescendL cs

end

/-- `__remove_dummy_nodes` (lines 110-135) on a whole tree.  The pass
walks a preorder snapshot; the splice reads `n.parent` unconditionally,
and the root is the only node without a parent (every other node keeps a
parent throughout, since splicing only ever reattaches a child one level
up).  The root is also the first node of the preorder snapshot, so a
single-child root hits `None.append` (`AttributeError`) before anything
is modified: that is the `none` case.  Otherwise no splice can lack a
parent and the pass runs to completion on every descendant. -/
def removeDummyNodes : TreeN → Option TreeN
  | .node nm l cs =>
    if cs.length = 1 then none
    else some (.node nm l (spliceDescendL cs))

mutual

/-- No node of the tree has exactly one child (`len(n.children) == 1`
never holds): the structural property dummy-node removal establishes. -/
def noSingle : TreeN → Bool
  | .node _ _ cs => (cs.length != 1) && noSingleL cs

/-- `noSingle` over a child list. -/
def noSingleL : List TreeN → Bool
  | [] => true
  | c :: cs => noSingle c && noSingleL cs

end

mutual

/-- The leaves under a node, each with its cumulative branch-length
distance from the point `acc` above the node (root-to-leaf path lengths
when started with `acc = 0` at the root). -/
def leafDepths (acc : Rat) : TreeN → List (String × Rat)
  | .node nm l [] => [(nm, acc + l)]
  | .node _ l (c :: cs) => leafDepthsL (acc + l) (c :: cs)

/-- `leafDepths` over a child list. -/
def leafDepthsL (acc : Rat) : List TreeN → List (String × Rat)
  | [] => []
  | c :: cs => leafDepths acc c ++ leafDepthsL acc cs

end

mutual

/-- For every tip below the node, the names on its ancestor chain walking
tip-to-root (`n.ancestors()`), given the names `anc` of the ancestors of
the node itself (immediate parent first). -/
def tipChains (anc : List String) : TreeN → List (List String)
  | .node _ _ [] => [anc]
  | .node nm _ (c :: cs) => tipChainsL (nm :: anc) (c :: cs)

/-- `tipChains` over a child list, left to right (the order of
`root.tips()`). -/
def tipChainsL (anc : List String) : List TreeN → List (List String)
  | [] => []
  | c :: cs => tipChains anc c ++ tipChainsL anc cs

end

/-- The ancestor-name chains of all tips of the tree (`root.tips()`
excludes the root itself, so a childless root contributes nothing). -/
def auditChains : TreeN → List (List String)
  | .node _ _ [] => []
  | .node nm _ (c :: cs) => tipChainsL [nm] (c :: cs)

/-- `__assess_consistency` (lines 151-168), one tip's walk: `cur` is
`cur_rank`, the chain is the tip's ancestor names.  A name without `'|'`
is skipped; otherwise `_name, ranks = node.name.split('|')` (two-part
unpack), `ranks = ranks.split(';')`, and
`highest_rank = self.rank_prefixes.index(ranks[0])` — which raises
`ValueError` when the first token is not a rank prefix.  If
`highest_rank > cur_rank` the walk stops and reports that `ranks` list
(the function prints it and returns); otherwise `cur_rank` becomes
`highest_rank` and the walk continues. -/
def checkChain : Nat → List String → Except String (Option (List String))
  | _, [] => .ok none
  | cur, nm :: rest =>
    if pyContains nm '|' then
      if (pySplit nm '|').length = 2 then
        if rank_prefixes.contains
            ((pySplit ((pySplit nm '|').getD 1 "") ';').getD 0 "") then
          if cur <
              rank_prefixes.indexOf
                ((pySplit ((pySplit nm '|').getD 1 "") ';').getD 0 "") then
            .ok (some (pySplit ((pySplit nm '|').getD 1 "") ';'))
          else
            checkChain
              (rank_prefixes.indexOf
                ((pySplit ((pySplit nm '|').getD 1 "") ';').getD 0 "")) rest
        else .error "ValueError: index"
      else .error "ValueError: unpack"
    else checkChain cur rest

/-- `__assess_consistency` over the tips in order: the first tip whose
walk raises propagates the exception; the first tip whose walk finds an
inconsistency makes the whole audit return it at once (`return` inside
the tip loop); only if every tip passes does the audit fall through. -/
def assessList : List (List String) → Except String (Option (List String))
  | [] => .ok none
  | ch :: chs =>
    match checkChain (rank_prefixes.length - 1) ch with
    | .error e => .error e
    | .ok (some r) => .ok (some r)
    | .ok none => assessList chs

/-- `__assess_consistency` (lines 137-170) on a tree: `none` is the
"Consistency test passed" outcome, `some ranks` the single inconsistency
it reports before returning, `.error` an uncaught exception. -/
def assessConsistency (t : TreeN) : Except String (Option (List String)) :=
  assessList (auditChains t)

/-- Modelled from the spec (§4.2): the report-collecting audit the spec
describes — walk each tip's chain exactly as the source does, but record
every inconsistency and continue (taking the offending rank as the new
reference), instead of returning at the first one; names that are not
rank-suffixed or whose token is unknown are skipped (the spec assumes
well-formed labels). -/
def collectChain : Nat → List String → List (List String)
  | _, [] => []
  | cur, nm :: rest =>
    if pyContains nm '|' then
      if (pySplit nm '|').length = 2 then
        if rank_prefixes.contains
            ((pySplit ((pySplit nm '|').getD 1 "") ';').getD 0 "") then
          if cur <
              rank_prefixes.indexOf
                ((pySplit ((pySplit nm '|').getD 1 "") ';').getD 0 "") then
            pySplit ((pySplit nm '|').getD 1 "") ';' ::
              collectChain
                (rank_prefixes.indexOf
                  ((pySplit ((pySplit nm '|').getD 1 "") ';').getD 0 "")) rest
          else
            collectChain
              (rank_prefixes.indexOf
                ((pySplit ((pySplit nm '|').getD 1 "") ';').getD 0 "")) rest
        else collectChain cur rest
      else collectChain cur rest
    else collectChain cur rest

/-- Modelled from the spec (§4.2): all inconsistencies gathered across
all tips, in tip order (empty report = success). -/
def collectAll (t : TreeN) : List (List String) :=
  (auditChains t).flatMap (collectChain (rank_prefixes.length - 1))

/-- A name the audit can process without raising: either no `'|'`, or
exactly one `'|'` with the first `';'`-token of the rank part a known
rank prefix. -/
def chainNameWF (nm : String) : Bool :=
  !(pyContains nm '|') ||
    ((pySplit nm '|').length == 2 &&
      rank_prefixes.contains
        ((pySplit ((pySplit nm '|').getD 1 "") ';').getD 0 ""))

/-- Every ancestor name on every tip chain of the tree is one the audit
can process without raising. -/
def treeWF (t : TreeN) : Bool :=
  (auditChains t).all (fun ch => ch.all chainNameWF)

/-- `write_consistency` (lines 52-78), applied to the preorder name list.
A node whose name has no `':'` is skipped (`continue`).  For a node with
`':'`: the label slice and the (swapped) `ranks, _name = n.name.split('|')`
unpack are computed — the unpack raises `ValueError` when the name does
not split into exactly two parts — and then
`fout.write('%s\t%s\n' % label, ranks)` applies the two-placeholder
format string to `label` alone, which raises
`TypeError: not enough arguments for format string`.  So the first
`':'`-carrying name always raises, and no row is ever written. -/
def writeConsistencyRows : List String → Except String (List String)
  | [] => .ok []
  | nm :: rest =>
    if pyContains nm ':' then
      if pyContains nm '|' then
        if (pySplit nm '|').length = 2 then
          .error "TypeError: not enough arguments for format string"
        else .error "ValueError: unpack"
      else .error "TypeError: not enough arguments for format string"
    else writeConsistencyRows rest

/-- `write_consistency` on a tree (with a truthy `consistency_table`):
the list of rows it writes, or the exception it raises. -/
def write_consistency (t : TreeN) : Except String (List String) :=
  writeConsistencyRows (preorderNames t)

/-- C2: the rank-propagation loop runs `cur_rank` over exactly the indices
`start_rank ≤ cur_rank < num_intervals`; the last index processed is
`num_intervals - 1` (family, the level immediately above genus, the
terminal rank the propagation assigns), and for every iterated index the
divisor `num_intervals - cur_rank` of `dist_to_child_rank` is strictly
positive, so the division is never by zero. -/
theorem c2_loop_divisor_positive (start_rank r : Nat)
    (hr : r ∈ loopRanks start_rank) :
    (start_rank ≤ r ∧ r < num_intervals) ∧
      0 < num_intervals - r ∧
      ((num_intervals : Rat) - (r : Rat)) ≠ 0 ∧
      rank_prefixes.getD (num_intervals - 1) "" = "F__" ∧
      rank_prefixes.getD num_intervals "" = "G__" := by
  have hmem : start_rank ≤ r ∧ r < start_rank + (num_intervals - start_rank) :=
    List.mem_range'_1.mp hr
  have hlt : r < num_intervals := by omega
  refine ⟨⟨hmem.1, hlt⟩, by omega, ?_, rfl, rfl⟩
  have : (r : Rat) < (num_intervals : Rat) := by exact_mod_cast hlt
  intro hc
  nlinarith

theorem c2_loop_divisor_positive_witness :
    (1 ∈ loopRanks 0) ∧
      ((0 ≤ 1 ∧ 1 < num_intervals) ∧
        0 < num_intervals - 1 ∧
        ((num_intervals : Rat) - (1 : Nat) : Rat) ≠ 0 ∧
        rank_prefixes.getD (num_intervals - 1) "" = "F__" ∧
        rank_prefixes.getD num_intervals "" = "G__") :=
  ⟨by decide, c2_loop_divisor_positive 0 1 (by decide)⟩

/-- C7: the boundary comparison deciding current versus next rank is
inclusive.  With `0 ≤ d2c`: a node whose cumulative distance is exactly
half of `dist_to_child_rank` is marked at the current rank (the test is
`≤`, not `<`); a node strictly beyond half but at most `d2c` is marked at
the next rank; a node strictly beyond `d2c` is not marked. -/
theorem c7_boundary_inclusive (dist d2c : Rat) (cur_rank : Nat)
    (hd : 0 ≤ d2c) :
    (dist = (1 / 2 : Rat) * d2c →
        classifyRank dist d2c cur_rank = some (rank_prefixes.getD cur_rank "")) ∧
      ((1 / 2 : Rat) * d2c < dist → dist ≤ d2c →
        classifyRank dist d2c cur_rank =
          some (rank_prefixes.getD (cur_rank + 1) "")) ∧
      (d2c < dist → classifyRank dist d2c cur_rank = none) := by
  unfold classifyRank
  refine ⟨?_, ?_, ?_⟩
  · intro heq
    subst heq
    rw [if_pos (by linarith), if_pos le_rfl]
  · intro h1 h2
    rw [if_pos h2, if_neg (by linarith)]
  · intro h
    rw [if_neg (by linarith)]

theorem c7_boundary_inclusive_witness :
    (0 ≤ (2 : Rat)) ∧
      (((1 : Rat) = (1 / 2 : Rat) * 2 →
          classifyRank 1 2 0 = some (rank_prefixes.getD 0 "")) ∧
        ((1 / 2 : Rat) * 2 < 1 → (1 : Rat) ≤ 2 →
          classifyRank 1 2 0 = some (rank_prefixes.getD 1 "")) ∧
        ((2 : Rat) < 1 → classifyRank 1 2 0 = none)) :=
  ⟨by norm_num, c7_boundary_inclusive 1 2 0 (by norm_num)⟩

/-- No slice of the first six rank tokens contains the species token. -/
theorem sTok_not_mem_take (k : Nat) (hk : k ≤ 6) :
    "S__" ∉ rank_prefixes.take k := by
  interval_cases k <;> decide

/-- No backfill slice ending at or before the genus index contains the
species token. -/
theorem sTok_not_mem_slice (d c : Nat) (hc : c ≤ 5) (hd : d ≤ 8) :
    "S__" ∉ (rank_prefixes.drop (d + 1)).take (c - d) := by
  interval_cases d <;> interval_cases c <;> decide

/-- Every name built by `markAssemble` ends with `'|'` followed by the
rank run. -/
theorem markAssemble_suffix (name : String) (b : Bool) (bs : String)
    (t : Option String) (run : String) :
    ∃ s, markAssemble name b bs t run = s ++ ("|" ++ run) := by
  unfold markAssemble
  cases t with
  | none => exact ⟨_, String.append_assoc _ "|" run⟩
  | some tt =>
    dsimp only
    split
    · exact ⟨_, String.append_assoc _ "|" run⟩
    · exact ⟨_, String.append_assoc _ "|" run⟩

/-- A successful `markRank` either leaves the name unchanged (a guard or
low-support no-op) or produces a name ending in `'|'` followed by the
back-filled rank run. -/
theorem markRank_ok_shape (tip : Bool) (name : String) (pr : Option String)
    (rp : String) (ms : Int) (out : String)
    (h : markRank tip name pr rp ms = .ok out) :
    out = name ∨ ∃ s, out = s ++ ("|" ++ backfillRun pr rp) := by
  unfold markRank at h
  repeat' split at h
  all_goals first
    | exact Except.noConfusion h
    | (injection h with h'; exact Or.inl h'.symm)
    | (injection h with h'; exact Or.inr (h' ▸ markAssemble_suffix _ _ _ _ _))

/-- C4: marking is a no-op on tips and on the species token.  For every
node and every rank token, if the node is a tip or the token is the
species-level token `'S__'`, `_mark_rank` leaves the node's name
unchanged; moreover, for the tokens the propagation loop can pass (rank
index at most 5, genus), the back-filled run never contains the
species token, so `'S__'` is never appended to any node's rank suffix. -/
theorem c4_tip_species_noop (tip : Bool) (name : String)
    (pr pr' : Option String) (rp rp' : String) (ms : Int)
    (hguard : tip = true ∨ rp = "S__")
    (hidx : rank_prefixes.indexOf rp' ≤ 5) :
    markRank tip name pr rp ms = .ok name ∧
      "S__" ∉ backfillTokens pr' rp' := by
  constructor
  · rcases hguard with h | h
    · simp [markRank, h]
    · cases tip
      · simp [markRank, h]
      · simp [markRank]
  · unfold backfillTokens
    cases pr' with
    | none => exact sTok_not_mem_take _ (by omega)
    | some pv =>
      dsimp only
      split
      · exact sTok_not_mem_take _ (by omega)
      · split
        · exact sTok_not_mem_slice _ _ hidx
            (le_trans List.indexOf_le_length (by decide))
        · intro hmem
          have hrp : rp' = "S__" := by
            have := hmem
            simp only [List.mem_singleton] at this
            exact this.symm
          rw [hrp] at hidx
          exact absurd hidx (by decide)

theorem c4_tip_species_noop_witness :
    (true = true ∨ "D__" = "S__") ∧ rank_prefixes.indexOf "G__" ≤ 5 ∧
      (markRank true "t1" none "D__" 0 = .ok "t1" ∧
        "S__" ∉ backfillTokens none "G__") :=
  ⟨Or.inl rfl, by decide,
    c4_tip_species_noop true "t1" none none "D__" "G__" 0 (Or.inl rfl)
      (by decide)⟩

/-- C5: back-filling writes the full consecutive run.  If the deepest rank
token already carried by the nearest ranked ancestor sits at index `d` and
the rank being assigned at index `c` with `d < c < 8`, the token run the
source computes is exactly the ordered run of rank tokens at indices
`d + 1` through `c`; with no ranked ancestor the run is the tokens from
the domain rank (index 0) through `c`; and any name a successful,
modifying `_mark_rank` writes ends with `'|'` followed by that run. -/
theorem c5_backfill_full_run (pr rp : String) (d c : Nat) (tip : Bool)
    (name : String) (ms : Int) (out : String)
    (hpr : pr ≠ "")
    (hd : rank_prefixes.indexOf ((pySplit pr ';').getLastD "") = d)
    (hc : rank_prefixes.indexOf rp = c)
    (hdc : d < c) (hc8 : c < 8)
    (hok : markRank tip name (some pr) rp ms = .ok out)
    (hne : out ≠ name) :
    backfillTokens (some pr) rp = specRun (d + 1) c ∧
      backfillTokens none rp = specRun 0 c ∧
      ∃ s, out = s ++ ("|" ++ backfillRun (some pr) rp) := by
  refine ⟨?_, ?_, ?_⟩
  · unfold backfillTokens
    dsimp only
    rw [if_neg hpr, hd, hc, if_pos hdc]
    interval_cases c <;> interval_cases d <;> decide
  · unfold backfillTokens
    dsimp only
    rw [hc]
    interval_cases c <;> decide
  · rcases markRank_ok_shape tip name (some pr) rp ms out hok with h | h
    · exact absurd h hne
    · exact h

theorem c5_backfill_full_run_witness :
    ("D__;P__" ≠ "" ∧
        rank_prefixes.indexOf ((pySplit "D__;P__" ';').getLastD "") = 1 ∧
        rank_prefixes.indexOf "F__" = 4 ∧ 1 < 4 ∧ 4 < 8 ∧
        markRank false "80:t1" (some "D__;P__") "F__" 0 =
          .ok "80:t1|C__;O__;F__" ∧
        "80:t1|C__;O__;F__" ≠ "80:t1") ∧
      (backfillTokens (some "D__;P__") "F__" = specRun 2 4 ∧
        backfillTokens none "F__" = specRun 0 4 ∧
        ∃ s, "80:t1|C__;O__;F__" =
          s ++ ("|" ++ backfillRun (some "D__;P__") "F__")) :=
  ⟨⟨by decide, by decide, by decide, by decide, by decide, rfl, by decide⟩,
    c5_backfill_full_run "D__;P__" "F__" 1 4 false "80:t1" 0
      "80:t1|C__;O__;F__" (by decide) (by decide) (by decide) (by decide)
      (by decide) rfl (by decide)⟩

/-- C9: `_marked_parent` skips single-child ancestors.  The rank run it
returns over an ancestor chain is exactly the one over the chain with
every single-child (dummy) entry removed, so the result — and hence every
back-filled suffix built from it — is determined only by ancestors with a
child count other than one, never by a dummy node's name. -/
theorem c9_marked_parent_skips_dummies (chain : List (String × Nat)) :
    markedParent chain =
      markedParent (chain.filter fun p => decide (p.2 ≠ 1)) := by
  induction chain with
  | nil => rfl
  | cons hd rest ih =>
    obtain ⟨nm, nc⟩ := hd
    by_cases h : nc = 1
    · subst h
      have hfilter : List.filter (fun p => decide (p.2 ≠ 1)) ((nm, 1) :: rest)
          = List.filter (fun p => decide (p.2 ≠ 1)) rest := by
        simp [List.filter_cons]
      rw [hfilter, ← ih]
      simp [markedParent]
    · have hfilter : List.filter (fun p => decide (p.2 ≠ 1)) ((nm, nc) :: rest)
          = (nm, nc) :: List.filter (fun p => decide (p.2 ≠ 1)) rest := by
        simp [List.filter_cons, h]
      rw [hfilter]
      simp only [markedParent]
      rw [if_neg h, if_neg h]
      by_cases hc : pyContains nm '|' = true
      · rw [if_pos hc, if_pos hc]
      · rw [if_neg hc, if_neg hc]
        exact ih

/-- C1 (amended): anchor resolution mutates as it goes.  With a valid
`start_rank`, if the first label fails to resolve then `mark` fails with
the tree unchanged, and if the first label resolves then the loop
continues on the already-renamed tree — so when a later label fails, the
earlier renames remain visible in the returned tree state. -/
theorem c1_anchor_failure_partial_mutation (s : Nat) (t t' : TreeN)
    (lab : String) (labs : List String) (hs : s < rank_prefixes.length) :
    (findAndRename lab ("|" ++ rank_prefixes.getD s "") t = none →
        markAnchors s t (lab :: labs) = (none, t)) ∧
      (findAndRename lab ("|" ++ rank_prefixes.getD s "") t = some t' →
        markAnchors s t (lab :: labs) = markAnchors s t' labs) := by
  constructor
  · intro h
    simp only [markAnchors]
    rw [if_pos hs, h]
  · intro h
    simp only [markAnchors]
    rw [if_pos hs, h]

theorem c1_anchor_failure_partial_mutation_witness :
    (0 < rank_prefixes.length) ∧
      markAnchors 0 (TreeN.node "root" 0 [TreeN.node "r1" 1 [],
          TreeN.node "x" 1 []]) ["bad"] =
        (none, TreeN.node "root" 0 [TreeN.node "r1" 1 [],
          TreeN.node "x" 1 []]) ∧
      markAnchors 0 (TreeN.node "root" 0 [TreeN.node "r1" 1 [],
          TreeN.node "x" 1 []]) ["r1", "bad"] =
        markAnchors 0 (TreeN.node "root" 0 [TreeN.node "r1|D__" 1 [],
          TreeN.node "x" 1 []]) ["bad"] :=
  ⟨by decide,
    (c1_anchor_failure_partial_mutation 0
      (TreeN.node "root" 0 [TreeN.node "r1" 1 [], TreeN.node "x" 1 []])
      (TreeN.node "root" 0 [TreeN.node "r1|D__" 1 [], TreeN.node "x" 1 []])
      "bad" [] (by decide)).1 rfl,
    (c1_anchor_failure_partial_mutation 0
      (TreeN.node "root" 0 [TreeN.node "r1" 1 [], TreeN.node "x" 1 []])
      (TreeN.node "root" 0 [TreeN.node "r1|D__" 1 [], TreeN.node "x" 1 []])
      "r1" ["bad"] (by decide)).2 rfl⟩

/-- C1 (counterexample): resolving `['r1', 'bad']` against a tree that
holds `r1` but not `bad` makes `mark` fail — yet the returned tree state
is not the original tree: `r1` already carries the appended rank token,
so a partial mutation is visible to the caller. -/
theorem c1_counterexample :
    (markAnchors 0 (TreeN.node "root" 0 [TreeN.node "r1" 1 [],
        TreeN.node "x" 1 []]) ["r1", "bad"]).1 = none ∧
      preorderNames (markAnchors 0 (TreeN.node "root" 0
        [TreeN.node "r1" 1 [], TreeN.node "x" 1 []]) ["r1", "bad"]).2 =
        ["root", "r1|D__", "x"] ∧
      ["root", "r1|D__", "x"] ≠
        preorderNames (TreeN.node "root" 0 [TreeN.node "r1" 1 [],
          TreeN.node "x" 1 []]) := by
  refine ⟨rfl, rfl, by decide⟩

/-- C8 (code bug): `write_consistency` never emits a row.  On a tree whose
only node is named `80:t1|D__` (a bootstrap, a taxon and a rank suffix —
exactly the kind of node the claim says produces one tab-separated row),
the function raises `TypeError`: `'%s\t%s\n' % label` applies the
two-placeholder format string to `label` alone and passes `ranks` as a
second argument to `write`.  And a node that carries a rank suffix but no
`':'` (name `t1|D__`) is skipped by the `':' in n.name` filter, so zero
rows are produced where the claim requires one row per rank-suffixed
node. -/
theorem c8_write_consistency_raises :
    write_consistency (TreeN.node "80:t1|D__" 0 []) =
        .error "TypeError: not enough arguments for format string" ∧
      write_consistency (TreeN.node "t1|D__" 0 []) = .ok [] :=
  ⟨rfl, rfl⟩

/-- One tip chain whose names the audit can process without raising walks
exactly as the spec's collecting audit does, but returns only the first
inconsistency (the head of the collected list). -/
theorem checkChain_eq_collect_head (ch : List String) :
    ∀ cur, ch.all chainNameWF = true →
      checkChain cur ch = .ok ((collectChain cur ch).head?) := by
  induction ch with
  | nil => intro cur _; rfl
  | cons nm rest ih =>
    intro cur hwf
    rw [List.all_cons, Bool.and_eq_true] at hwf
    obtain ⟨hnm, hrest⟩ := hwf
    by_cases hpipe : pyContains nm '|' = true
    · have h2 : ((pySplit nm '|').length == 2 &&
          rank_prefixes.contains
            ((pySplit ((pySplit nm '|').getD 1 "") ';').getD 0 "")) = true := by
        unfold chainNameWF at hnm
        rw [hpipe] at hnm
        simpa using hnm
      rw [Bool.and_eq_true, beq_iff_eq] at h2
      obtain ⟨hlen, hcontains⟩ := h2
      simp only [checkChain, collectChain]
      rw [if_pos hpipe, if_pos hpipe, if_pos hlen, if_pos hlen,
        if_pos hcontains, if_pos hcontains]
      by_cases hlt : cur <
          rank_prefixes.indexOf
            ((pySplit ((pySplit nm '|').getD 1 "") ';').getD 0 "")
      · rw [if_pos hlt, if_pos hlt]
        rfl
      · rw [if_neg hlt, if_neg hlt]
        exact ih _ hrest
    · simp only [checkChain, collectChain]
      rw [if_neg hpipe, if_neg hpipe]
      exact ih cur hrest

/-- C6 (amended): on a tree whose tip-chain names are all well-formed the
audit does not raise, and what it returns is the head of the spec's
collected report — the first inconsistency in tip order, or success when
the collected report is empty; it does not gather the report across all
tips. -/
theorem c6_audit_first_only (t : TreeN) (hwf : treeWF t = true) :
    assessConsistency t = .ok ((collectAll t).head?) := by
  unfold assessConsistency collectAll treeWF at *
  have h : ∀ chs : List (List String),
      (chs.all fun ch => ch.all chainNameWF) = true →
      assessList chs =
        .ok ((chs.flatMap (collectChain (rank_prefixes.length - 1))).head?) := by
    intro chs
    induction chs with
    | nil => intro _; rfl
    | cons ch rest ih =>
      intro hwf2
      rw [List.all_cons, Bool.and_eq_true] at hwf2
      obtain ⟨hch, hrest⟩ := hwf2
      simp only [assessList, List.flatMap_cons]
      rw [checkChain_eq_collect_head ch _ hch]
      cases hcc : collectChain (rank_prefixes.length - 1) ch with
      | nil => simpa using ih hrest
      | cons r rs => rfl
  exact h _ hwf

theorem c6_audit_first_only_witness :
    (treeWF (TreeN.node "root" 0
        [TreeN.node "n2|P__" 1 [TreeN.node "n1|D__" 1 [TreeN.node "ta" 1 []]],
         TreeN.node "m2|P__" 1 [TreeN.node "m1|D__" 1 [TreeN.node "tb" 1 []]]])
       = true) ∧
      assessConsistency (TreeN.node "root" 0
        [TreeN.node "n2|P__" 1 [TreeN.node "n1|D__" 1 [TreeN.node "ta" 1 []]],
         TreeN.node "m2|P__" 1 [TreeN.node "m1|D__" 1 [TreeN.node "tb" 1 []]]])
        = .ok ((collectAll (TreeN.node "root" 0
        [TreeN.node "n2|P__" 1 [TreeN.node "n1|D__" 1 [TreeN.node "ta" 1 []]],
         TreeN.node "m2|P__" 1 [TreeN.node "m1|D__" 1 [TreeN.node "tb" 1 []]]])).head?) :=
  ⟨by decide,
    c6_audit_first_only (TreeN.node "root" 0
      [TreeN.node "n2|P__" 1 [TreeN.node "n1|D__" 1 [TreeN.node "ta" 1 []]],
       TreeN.node "m2|P__" 1 [TreeN.node "m1|D__" 1 [TreeN.node "tb" 1 []]]])
      (by decide)⟩

/-- C6 (counterexample): the audit can raise, and it does not return the
inconsistencies gathered across all tips.  On a tree whose one ranked
ancestor carries the unknown token `BOGUS`, `rank_prefixes.index` raises
`ValueError`.  On a tree with two tips whose chains each contain an
inconsistency (a `D__`-ranked ancestor below a `P__`-ranked one), the
collected report has two entries but the audit returns only the first and
stops. -/
theorem c6_counterexample :
    assessConsistency (TreeN.node "root" 0
        [TreeN.node "x|BOGUS" 1 [TreeN.node "t" 1 []]]) =
      .error "ValueError: index" ∧
      assessConsistency (TreeN.node "root" 0
        [TreeN.node "n2|P__" 1 [TreeN.node "n1|D__" 1 [TreeN.node "ta" 1 []]],
         TreeN.node "m2|P__" 1 [TreeN.node "m1|D__" 1 [TreeN.node "tb" 1 []]]])
        = .ok (some ["P__"]) ∧
      collectAll (TreeN.node "root" 0
        [TreeN.node "n2|P__" 1 [TreeN.node "n1|D__" 1 [TreeN.node "ta" 1 []]],
         TreeN.node "m2|P__" 1 [TreeN.node "m1|D__" 1 [TreeN.node "tb" 1 []]]])
        = [["P__"], ["P__"]] :=
  ⟨rfl, rfl, by decide⟩

/-- Splicing a child list preserves its length (each splice happens inside
one subtree). -/
theorem spliceDescendL_length (cs : List TreeN) :
    (spliceDescendL cs).length = cs.length := by
  induction cs with
  | nil => rfl
  | cons c rest ih => simp [spliceDescendL, ih]

/-- Moving part of a node's branch length up into the accumulated distance
does not change the leaf depths below it. -/
theorem leafDepths_shift (nm : String) (x y acc : Rat) (cs : List TreeN) :
    leafDepths acc (.node nm (x + y) cs) = leafDepths (acc + x) (.node nm y cs) := by
  cases cs with
  | nil => simp [leafDepths, add_assoc]
  | cons c rest => simp [leafDepths, add_assoc]

/-- Dummy-node splicing preserves every leaf's cumulative branch-length
distance, both through `spliceTop` on a node's pieces and through
`spliceDescendL` on a child list. -/
theorem spliceTop_leafDepths (cs0 : List TreeN) :
    (∀ nm l acc, leafDepths acc (spliceTop nm l cs0) =
        leafDepths acc (.node nm l cs0)) ∧
      (∀ acc, leafDepthsL acc (spliceDescendL cs0) = leafDepthsL acc cs0) := by
  refine @TreeN.rec
    (fun t => (∀ nm l acc, leafDepths acc (spliceTop nm l t.children) =
        leafDepths acc (.node nm l t.children)) ∧
      (∀ acc, leafDepthsL acc (spliceDescendL t.children) =
        leafDepthsL acc t.children))
    (fun cs => (∀ nm l acc, leafDepths acc (spliceTop nm l cs) =
        leafDepths acc (.node nm l cs)) ∧
      (∀ acc, leafDepthsL acc (spliceDescendL cs) = leafDepthsL acc cs))
    (fun _ _ _ ih => ih)
    ⟨fun _ _ _ => rfl, fun _ => rfl⟩
    ?_ (TreeN.node "" 0 cs0)
  rintro ⟨x, y, zs⟩ tail ih1 ih2
  simp only [TreeN.children] at ih1
  constructor
  · intro nm l acc
    cases tail with
    | nil =>
      rw [show spliceTop nm l [TreeN.node x y zs] = spliceTop x (l + y) zs
        from rfl]
      rw [ih1.1 x (l + y) acc, leafDepths_shift x l y acc zs]
      show leafDepths (acc + l) (TreeN.node x y zs) =
        leafDepths (acc + l) (TreeN.node x y zs) ++
          leafDepthsL (acc + l) ([] : List TreeN)
      rw [show leafDepthsL (acc + l) ([] : List TreeN) = [] from rfl,
        List.append_nil]
    | cons c₂ cs₂ =>
      show leafDepths (acc + l) (spliceDescend (TreeN.node x y zs)) ++
          leafDepthsL (acc + l) (spliceDescend c₂ :: spliceDescendL cs₂) =
        leafDepths (acc + l) (TreeN.node x y zs) ++
          leafDepthsL (acc + l) (c₂ :: cs₂)
      have hhead : leafDepths (acc + l) (spliceDescend (TreeN.node x y zs)) =
          leafDepths (acc + l) (TreeN.node x y zs) := ih1.1 x y (acc + l)
      have htail : leafDepthsL (acc + l)
            (spliceDescend c₂ :: spliceDescendL cs₂) =
          leafDepthsL (acc + l) (c₂ :: cs₂) := ih2.2 (acc + l)
      rw [hhead, htail]
  · intro acc
    show leafDepths acc (spliceDescend (TreeN.node x y zs)) ++
        leafDepthsL acc (spliceDescendL tail) =
      leafDepths acc (TreeN.node x y zs) ++ leafDepthsL acc tail
    have hhead : leafDepths acc (spliceDescend (TreeN.node x y zs)) =
        leafDepths acc (TreeN.node x y zs) := ih1.1 x y acc
    rw [hhead, ih2.2 acc]

/-- After splicing, no node has exactly one child, both through
`spliceTop` on a node's pieces and through `spliceDescendL` on a child
list. -/
theorem spliceTop_noSingle (cs0 : List TreeN) :
    (∀ nm l, noSingle (spliceTop nm l cs0) = true) ∧
      noSingleL (spliceDescendL cs0) = true := by
  refine @TreeN.rec
    (fun t => (∀ nm l, noSingle (spliceTop nm l t.children) = true) ∧
      noSingleL (spliceDescendL t.children) = true)
    (fun cs => (∀ nm l, noSingle (spliceTop nm l cs) = true) ∧
      noSingleL (spliceDescendL cs) = true)
    (fun _ _ _ ih => ih)
    ⟨fun _ _ => rfl, rfl⟩
    ?_ (TreeN.node "" 0 cs0)
  rintro ⟨x, y, zs⟩ tail ih1 ih2
  simp only [TreeN.children] at ih1
  have hhead : noSingle (spliceDescend (TreeN.node x y zs)) = true :=
    ih1.1 x y
  constructor
  · intro nm l
    cases tail with
    | nil =>
      rw [show spliceTop nm l [TreeN.node x y zs] = spliceTop x (l + y) zs
        from rfl]
      exact ih1.1 x (l + y)
    | cons c₂ cs₂ =>
      show (((spliceDescend (TreeN.node x y zs) :: spliceDescend c₂ ::
            spliceDescendL cs₂).length != 1) &&
          (noSingle (spliceDescend (TreeN.node x y zs)) &&
            noSingleL (spliceDescend c₂ :: spliceDescendL cs₂))) = true
      have htail : noSingleL (spliceDescend c₂ :: spliceDescendL cs₂) = true :=
        ih2.2
      rw [hhead, htail]
      simp [List.length_cons]
  · show (noSingle (spliceDescend (TreeN.node x y zs)) &&
        noSingleL (spliceDescendL tail)) = true
    rw [hhead, ih2.2]
    rfl

/-- Splicing is the identity on a child list that already contains no
single-child node. -/
theorem spliceTop_identity (cs0 : List TreeN) :
    (∀ nm l, cs0.length ≠ 1 → noSingleL cs0 = true →
        spliceTop nm l cs0 = .node nm l cs0) ∧
      (noSingleL cs0 = true → spliceDescendL cs0 = cs0) := by
  refine @TreeN.rec
    (fun t => (∀ nm l, t.children.length ≠ 1 → noSingleL t.children = true →
        spliceTop nm l t.children = .node nm l t.children) ∧
      (noSingleL t.children = true → spliceDescendL t.children = t.children))
    (fun cs => (∀ nm l, cs.length ≠ 1 → noSingleL cs = true →
        spliceTop nm l cs = .node nm l cs) ∧
      (noSingleL cs = true → spliceDescendL cs = cs))
    (fun _ _ _ ih => ih)
    ⟨fun _ _ _ _ => rfl, fun _ => rfl⟩
    ?_ (TreeN.node "" 0 cs0)
  rintro ⟨x, y, zs⟩ tail ih1 ih2
  simp only [TreeN.children] at ih1
  have hsp : noSingle (TreeN.node x y zs) = true →
      spliceDescend (TreeN.node x y zs) = TreeN.node x y zs := by
    intro h
    rw [show noSingle (TreeN.node x y zs) =
      ((zs.length != 1) && noSingleL zs) from rfl, Bool.and_eq_true,
      bne_iff_ne] at h
    exact ih1.1 x y h.1 h.2
  constructor
  · intro nm l hlen hns
    cases tail with
    | nil => exact absurd (by rfl : [TreeN.node x y zs].length = 1) hlen
    | cons c₂ cs₂ =>
      rw [show noSingleL (TreeN.node x y zs :: c₂ :: cs₂) =
        (noSingle (TreeN.node x y zs) && noSingleL (c₂ :: cs₂)) from rfl,
        Bool.and_eq_true] at hns
      show TreeN.node nm l (spliceDescend (TreeN.node x y zs) ::
          spliceDescend c₂ :: spliceDescendL cs₂) =
        TreeN.node nm l (TreeN.node x y zs :: c₂ :: cs₂)
      have h2 := ih2.2 hns.2
      rw [show spliceDescendL (c₂ :: cs₂) =
        spliceDescend c₂ :: spliceDescendL cs₂ from rfl] at h2
      rw [hsp hns.1, h2]
  · intro hns
    rw [show noSingleL (TreeN.node x y zs :: tail) =
      (noSingle (TreeN.node x y zs) && noSingleL tail) from rfl,
      Bool.and_eq_true] at hns
    show spliceDescend (TreeN.node x y zs) :: spliceDescendL tail =
      TreeN.node x y zs :: tail
    rw [hsp hns.1, ih2.2 hns.2]

/-- C3 (amended): for every tree whose root does not have exactly one
child, dummy-node removal completes, leaves no node with exactly one
child, preserves the cumulative branch-length distance from the root to
every leaf, and is idempotent (running it again changes nothing). -/
theorem c3_remove_dummy_clean (t : TreeN) (acc : Rat)
    (h : t.children.length ≠ 1) :
    ((removeDummyNodes t).map noSingle = some true) ∧
      ((removeDummyNodes t).map (leafDepths acc) = some (leafDepths acc t)) ∧
      ((removeDummyNodes t).bind removeDummyNodes = removeDummyNodes t) := by
  obtain ⟨nm, l, cs⟩ := t
  simp only [TreeN.children] at h
  have hrd : removeDummyNodes (TreeN.node nm l cs) =
      some (TreeN.node nm l (spliceDescendL cs)) := by
    simp only [removeDummyNodes]
    rw [if_neg h]
  have hlen : (spliceDescendL cs).length = cs.length := spliceDescendL_length cs
  have hns : noSingleL (spliceDescendL cs) = true := (spliceTop_noSingle cs).2
  refine ⟨?_, ?_, ?_⟩
  · rw [hrd]
    show some (noSingle (TreeN.node nm l (spliceDescendL cs))) = some true
    have hone : noSingle (TreeN.node nm l (spliceDescendL cs)) = true := by
      rw [show noSingle (TreeN.node nm l (spliceDescendL cs)) =
        (((spliceDescendL cs).length != 1) && noSingleL (spliceDescendL cs))
        from rfl, Bool.and_eq_true, bne_iff_ne]
      exact ⟨by rw [hlen]; exact h, hns⟩
    rw [hone]
  · rw [hrd]
    show some (leafDepths acc (TreeN.node nm l (spliceDescendL cs))) =
      some (leafDepths acc (TreeN.node nm l cs))
    cases cs with
    | nil => rfl
    | cons c rest =>
      have hld := (spliceTop_leafDepths (c :: rest)).2 (acc + l)
      rw [show spliceDescendL (c :: rest) =
        spliceDescend c :: spliceDescendL rest from rfl] at hld
      exact congrArg some hld
  · rw [hrd]
    show removeDummyNodes (TreeN.node nm l (spliceDescendL cs)) =
      some (TreeN.node nm l (spliceDescendL cs))
    simp only [removeDummyNodes]
    rw [if_neg (by rw [hlen]; exact h),
      (spliceTop_identity (spliceDescendL cs)).2 hns]

theorem c3_remove_dummy_clean_witness :
    ((TreeN.node "r" 0 [TreeN.node "d" 1 [TreeN.node "c" 1
        [TreeN.node "a" 1 [], TreeN.node "b" 1 []]],
      TreeN.node "e" 1 []]).children.length ≠ 1) ∧
      (((removeDummyNodes (TreeN.node "r" 0 [TreeN.node "d" 1 [TreeN.node "c" 1
          [TreeN.node "a" 1 [], TreeN.node "b" 1 []]],
        TreeN.node "e" 1 []])).map noSingle = some true) ∧
        ((removeDummyNodes (TreeN.node "r" 0 [TreeN.node "d" 1 [TreeN.node "c" 1
            [TreeN.node "a" 1 [], TreeN.node "b" 1 []]],
          TreeN.node "e" 1 []])).map (leafDepths 0) =
          some (leafDepths 0 (TreeN.node "r" 0 [TreeN.node "d" 1 [TreeN.node "c" 1
            [TreeN.node "a" 1 [], TreeN.node "b" 1 []]],
          TreeN.node "e" 1 []]))) ∧
        ((removeDummyNodes (TreeN.node "r" 0 [TreeN.node "d" 1 [TreeN.node "c" 1
            [TreeN.node "a" 1 [], TreeN.node "b" 1 []]],
          TreeN.node "e" 1 []])).bind removeDummyNodes =
          removeDummyNodes (TreeN.node "r" 0 [TreeN.node "d" 1 [TreeN.node "c" 1
            [TreeN.node "a" 1 [], TreeN.node "b" 1 []]],
          TreeN.node "e" 1 []]))) :=
  ⟨by decide,
    c3_remove_dummy_clean (TreeN.node "r" 0 [TreeN.node "d" 1 [TreeN.node "c" 1
        [TreeN.node "a" 1 [], TreeN.node "b" 1 []]],
      TreeN.node "e" 1 []]) 0 (by decide)⟩

/-- C3 (counterexample): on a tree whose root has exactly one child the
removal pass does not complete at all — the very first splice reads the
root's absent parent (`AttributeError` in the source), so it is not true
that for every tree the pass terminates with the claimed properties. -/
theorem c3_counterexample :
    removeDummyNodes (TreeN.node "r" 0 [TreeN.node "a" 1 []]) = none := rfl

/-- C10: the only way the splice can access an absent parent is at the
root.  For every tree whose root does not have exactly one child the
removal pass completes (returns a tree); when the root has exactly one
child, the pass fails on the missing parent. -/
theorem c10_remove_dummy_root_guard (t : TreeN) :
    (t.children.length ≠ 1 → (removeDummyNodes t).isSome = true) ∧
      (t.children.length = 1 → removeDummyNodes t = none) := by
  obtain ⟨nm, l, cs⟩ := t
  simp only [TreeN.children]
  constructor
  · intro h
    simp only [removeDummyNodes]
    rw [if_neg h]
    rfl
  · intro h
    simp only [removeDummyNodes]
    rw [if_pos h]

theorem c10_remove_dummy_root_guard_witness :
    ((TreeN.node "r" 0 [TreeN.node "a" 1 [], TreeN.node "b" 1 []]).children.length ≠ 1 ∧
        (removeDummyNodes (TreeN.node "r" 0 [TreeN.node "a" 1 [],
          TreeN.node "b" 1 []])).isSome = true) ∧
      ((TreeN.node "r" 0 [TreeN.node "a" 1 []]).children.length = 1 ∧
        removeDummyNodes (TreeN.node "r" 0 [TreeN.node "a" 1 []]) = none) :=
  ⟨⟨by decide,
      (c10_remove_dummy_root_guard (TreeN.node "r" 0 [TreeN.node "a" 1 [],
        TreeN.node "b" 1 []])).1 (by decide)⟩,
    ⟨by decide,
      (c10_remove_dummy_root_guard (TreeN.node "r" 0
        [TreeN.node "a" 1 []])).2 (by decide)⟩⟩
